import Mathlib

/-!
# Verification of the Supabase Event Manager admin panel (`src/app.py`)

Shallow embedding of the program's data model and operations:

* Python dicts of strings are modelled as association lists in insertion
  order with unique keys; dict assignment is `dictInsert` (overwrite in
  place, else append), and dict comprehensions are `dictComp`.
* `json.dumps` with default settings on a flat string-to-string dict is
  `json_dumps` (separators `", "` and `": "`, `ensure_ascii` escaping with
  lowercase hex and surrogate pairs for astral code points).
* `json.loads` is `json_loads`, modelled for the flat string-object shape
  this application ever stores: a text that is not a JSON object whose
  values are all strings makes the parse fail (where Python would raise,
  or return a value the rest of the program cannot use as a mapping).
* The Supabase `events` table is a list of rows `BRow` whose `data` cell
  is either raw text or an already structured mapping (`Cell`), matching
  the `isinstance(event["data"], str)` test in `fetch_events`.
* The Streamlit controllers' submit handlers and session-state logic are
  embedded as pure functions on an explicit session/database state.
-/

namespace EventManager

/-- Python dict assignment `d[k] = v` on a dict kept in insertion order:
overwrite the value in place when the key is present (keeping the key's
first-occurrence position), otherwise append a fresh entry. -/
def dictInsert (k v : String) : List (String × String) → List (String × String)
  | [] => [(k, v)]
  | (k0, v0) :: t => if k0 = k then (k, v) :: t else (k0, v0) :: dictInsert k v t

/-- Python dict comprehension over a sequence,
`\x7bf(x): g(x) for x in xs if p(x)\x7d`: fold the kept elements into a dict
in iteration order. -/
def dictComp (f g : α → String) (p : α → Bool) (xs : List α) : List (String × String) :=
  xs.foldl (fun d x => if p x then dictInsert (f x) (g x) d else d) []

/-- Lookup in a dict modelled as an association list (`d[k]` / `d.get(k)`). -/
def dictGet (k : String) (d : List (String × String)) : Option String :=
  (d.find? (fun kv => kv.1 = k)).map Prod.snd

/-- Lowercase hexadecimal digit, as used by Python's `"\\u%04x"` escapes. -/
def hexDigit (n : Nat) : Char :=
  if n < 10 then Char.ofNat (48 + n) else Char.ofNat (87 + n)

/-- Four-digit lowercase hex rendering of a code unit below `0x10000`. -/
def encodeHex4 (n : Nat) : List Char :=
  [hexDigit (n / 4096 % 16), hexDigit (n / 256 % 16), hexDigit (n / 16 % 16), hexDigit (n % 16)]

/-- Escaping of one character by Python's `json.dumps` default
(`ensure_ascii=True`) encoder: `\"` and `\\\\` stay two-character escapes,
the five short control escapes are used, every other character outside
`0x20`-`0x7e` becomes `\\uXXXX` (a surrogate pair when above `0xffff`),
and the rest is emitted literally. -/
def escapeChar (c : Char) : List Char :=
  if c = '"' then ['\\', '"']
  else if c = '\\' then ['\\', '\\']
  else if c.toNat = 8 then ['\\', 'b']
  else if c.toNat = 9 then ['\\', 't']
  else if c.toNat = 10 then ['\\', 'n']
  else if c.toNat = 12 then ['\\', 'f']
  else if c.toNat = 13 then ['\\', 'r']
  else if c.toNat < 32 ∨ 127 ≤ c.toNat then
    if c.toNat < 65536 then '\\' :: 'u' :: encodeHex4 c.toNat
    else '\\' :: 'u' :: encodeHex4 (55296 + (c.toNat - 65536) / 1024) ++
         '\\' :: 'u' :: encodeHex4 (56320 + (c.toNat - 65536) % 1024)
  else [c]

/-- A JSON string literal: quote, escaped characters, closing quote. -/
def encodeString (s : String) : List Char :=
  '"' :: s.data.flatMap escapeChar ++ ['"']

/-- One object member `"k": "v"` of the serialized dict. -/
def encodeMember (kv : String × String) : List Char :=
  encodeString kv.1 ++ ':' :: ' ' :: encodeString kv.2

/-- `json.dumps` with default settings on a flat string-to-string dict:
`\x7b"k": "v", ...\x7d`, members separated by `", "`, keys and values
separated by `": "`. -/
def json_dumps (m : List (String × String)) : String :=
  String.mk ('\x7b' :: List.intercalate [',', ' '] (m.map encodeMember) ++ ['\x7d'])

/-- JSON whitespace, as skipped by Python's decoder. -/
def isJsonWs (c : Char) : Bool :=
  c = ' ' || c = '\t' || c = '\n' || c = '\r'

/-- Skip JSON whitespace. -/
def skipWs (l : List Char) : List Char :=
  l.dropWhile isJsonWs

/-- Value of one hexadecimal digit (Python accepts both cases). -/
def hexVal (c : Char) : Option Nat :=
  if '0' ≤ c ∧ c ≤ '9' then some (c.toNat - 48)
  else if 'a' ≤ c ∧ c ≤ 'f' then some (c.toNat - 87)
  else if 'A' ≤ c ∧ c ≤ 'F' then some (c.toNat - 55)
  else none

/-- Prepend a character to the content of a partial string-parse result. -/
def consParsed (c : Char) (o : Option (List Char × List Char)) :
    Option (List Char × List Char) :=
  o.map (fun p => (c :: p.1, p.2))

/-- Body of a JSON string literal after the opening quote, following
Python's `py_scanstring`: literal characters up to the closing quote
(control characters rejected, as in strict mode), backslash escapes, and
`\\uXXXX` escapes where a high surrogate immediately followed by a
`\\uXXXX` low surrogate yields the combined code point (a lone surrogate,
which Lean's `Char` cannot carry, falls back through `Char.ofNat`).
Returns the decoded content and the rest after the closing quote.
Recursion is bounded by `fuel`; every step consumes at least one input
character, so callers pass the input length plus one, which always
suffices. -/
def parseStrBody : Nat → List Char → Option (List Char × List Char)
  | 0, _ => none
  | _ + 1, [] => none
  | fuel + 1, c :: r =>
    if c = '"' then some ([], r)
    else if c = '\\' then
      match r with
      | [] => none
      | e :: r2 =>
        if e = '"' then consParsed '"' (parseStrBody fuel r2)
        else if e = '\\' then consParsed '\\' (parseStrBody fuel r2)
        else if e = '/' then consParsed '/' (parseStrBody fuel r2)
        else if e = 'b' then consParsed (Char.ofNat 8) (parseStrBody fuel r2)
        else if e = 'f' then consParsed (Char.ofNat 12) (parseStrBody fuel r2)
        else if e = 'n' then consParsed (Char.ofNat 10) (parseStrBody fuel r2)
        else if e = 'r' then consParsed (Char.ofNat 13) (parseStrBody fuel r2)
        else if e = 't' then consParsed (Char.ofNat 9) (parseStrBody fuel r2)
        else if e = 'u' then
          match r2 with
          | a :: b :: c2 :: d :: r3 =>
            match hexVal a, hexVal b, hexVal c2, hexVal d with
            | some h1, some h2, some h3, some h4 =>
              let h := h1 * 4096 + h2 * 256 + h3 * 16 + h4
              if 55296 ≤ h ∧ h < 56320 then
                match r3 with
                | '\\' :: 'u' :: a2 :: b2 :: c3 :: d2 :: r4 =>
                  match hexVal a2, hexVal b2, hexVal c3, hexVal d2 with
                  | some g1, some g2, some g3, some g4 =>
                    let lo := g1 * 4096 + g2 * 256 + g3 * 16 + g4
                    if 56320 ≤ lo ∧ lo < 57344 then
                      consParsed (Char.ofNat (65536 + (h - 55296) * 1024 + (lo - 56320)))
                        (parseStrBody fuel r4)
                    else
                      consParsed (Char.ofNat h)
                        (parseStrBody fuel ('\\' :: 'u' :: a2 :: b2 :: c3 :: d2 :: r4))
                  | _, _, _, _ => none
                | _ => consParsed (Char.ofNat h) (parseStrBody fuel r3)
              else consParsed (Char.ofNat h) (parseStrBody fuel r3)
            | _, _, _, _ => none
          | _ => none
        else none
    else if c.toNat < 32 then none
    else consParsed c (parseStrBody fuel r)

/-- A JSON string literal: an opening quote then `parseStrBody`. -/
def parseJString (l : List Char) : Option (String × List Char) :=
  match l with
  | '"' :: r => (parseStrBody (r.length + 1) r).map (fun p => (String.mk p.1, p.2))
  | _ => none

/-- The member list of a nonempty flat JSON object, after the opening
brace: repeatedly a string key, `:`, a string value, then `,` to continue
or the closing brace to stop. `fuel` bounds the number of members; the
caller passes the input length, which always suffices. -/
def parsePairs : Nat → List Char → Option (List (String × String) × List Char)
  | 0, _ => none
  | fuel + 1, l =>
    match parseJString (skipWs l) with
    | none => none
    | some (k, r1) =>
      match skipWs r1 with
      | ':' :: r2 =>
        match parseJString (skipWs r2) with
        | none => none
        | some (v, r3) =>
          match skipWs r3 with
          | ',' :: r4 => (parsePairs fuel r4).map (fun p => ((k, v) :: p.1, p.2))
          | '\x7d' :: r4 => some ([(k, v)], r4)
          | _ => none
      | _ => none

/-- A flat JSON object `\x7b"k": "v", ...\x7d`: the pair list in source
order and the remaining input. -/
def parseFlatObj (l : List Char) : Option (List (String × String) × List Char) :=
  match skipWs l with
  | '\x7b' :: r =>
    match skipWs r with
    | '\x7d' :: r2 => some ([], r2)
    | _ => parsePairs (r.length + 1) r
  | _ => none

/-- `json.loads` on the flat string-object texts this application stores:
parse the object, require only trailing whitespace, and build the dict by
assigning the pairs in order (so a repeated key keeps its first position
and last value, as in Python). Any other input is a failure. -/
def json_loads (s : String) : Option (List (String × String)) :=
  match parseFlatObj s.data with
  | some (pairs, rest) =>
    if skipWs rest = [] then
      some (pairs.foldl (fun d kv => dictInsert kv.1 kv.2 d) [])
    else none
  | none => none

/-- A value of the backend's `data` column as the client hands it to
`fetch_events`: either raw JSON text or an already structured mapping,
as distinguished by `isinstance(event["data"], str)`. -/
inductive Cell where
  | str (s : String)
  | obj (m : List (String × String))
deriving DecidableEq, Repr

/-- A row of the backend `events` table: primary key `id` and the
attribute column `data`. -/
structure BRow where
  id : String
  data : Cell
deriving DecidableEq, Repr

/-- The backend `events` table. -/
abbrev DB := List BRow

/-- An event as the UI consumes it after `fetch_events`: its id and its
attribute mapping. -/
abbrev Event := String × List (String × String)

/-- `fetch_events`: one event per backend row, parsing the `data` column
with `json.loads` where it is a string and passing it through unchanged
where it is already structured. A cell whose text does not parse makes
the whole fetch fail (Python raises out of the loop). -/
def fetch_events : DB → Option (List Event)
  | [] => some []
  | row :: rest =>
    match row.data with
    | Cell.str s =>
      match json_loads s, fetch_events rest with
      | some m, some evs => some ((row.id, m) :: evs)
      | _, _ => none
    | Cell.obj m => (fetch_events rest).map (fun evs => (row.id, m) :: evs)

/-- The sanitization both writes apply:
`\x7bkey: value for key, value in event_data.items() if key and value\x7d` —
keep only entries whose key and value are non-empty strings. -/
def formatData (event_data : List (String × String)) : List (String × String) :=
  dictComp Prod.fst Prod.snd (fun kv => kv.1 ≠ "" && kv.2 ≠ "") event_data

/-- `add_event`: sanitize, serialize, and insert the new row
`\x7b"id": event_id, "data": json.dumps(formatted_data)\x7d`. -/
def add_event (db : DB) (event_id : String) (event_data : List (String × String)) : DB :=
  db ++ [⟨event_id, Cell.str (json_dumps (formatData event_data))⟩]

/-- `update_event`: sanitize, serialize, and set the `data` column of
every row whose `id` matches (`.eq("id", event_id)`), leaving every other
row and every `id` untouched. -/
def update_event (db : DB) (event_id : String) (new_data : List (String × String)) : DB :=
  db.map (fun row =>
    if row.id = event_id then ⟨row.id, Cell.str (json_dumps (formatData new_data))⟩ else row)

/-- `delete_event`: remove every row whose `id` matches. -/
def delete_event (db : DB) (event_id : String) : DB :=
  db.filter (fun row => row.id ≠ event_id)

/-- A row of the editable two-column table: (Attribute, Prompt). -/
abbrev TableRow := String × String

/-- The dict built on submit in both the Add and the Edit tab:
`\x7brow["Attribute"]: row["Prompt"] for _, row in df.iterrows() if row["Attribute"]\x7d`. -/
def buildDict (rows : List TableRow) : List (String × String) :=
  dictComp Prod.fst Prod.snd (fun r => r.1 ≠ "") rows

/-- Outcome of the Add Event tab's submit handler: the table afterwards,
whether `add_event` ran, whether the validation error was shown, and the
resulting backend state. -/
structure CreateOutcome where
  db : DB
  added : Bool
  errorShown : Bool
  table : List TableRow
deriving DecidableEq, Repr

/-- The Add Event submit handler (lines 95-107): build `parsed_data` from
the table, and `if new_event_id and parsed_data:` call `add_event`, show
success and reset the table to empty; otherwise show the validation error
and leave everything unchanged. -/
def tab2Submit (db : DB) (new_event_id : String) (table : List TableRow) : CreateOutcome :=
  let parsed_data := buildDict table
  if new_event_id ≠ "" ∧ parsed_data ≠ [] then
    ⟨add_event db new_event_id parsed_data, true, false, []⟩
  else
    ⟨db, false, true, table⟩

/-- The Edit tab's session state: the remembered selected id and the
editable table (`st.session_state.edit_event_id` / `edit_data_df`), which
are always set together. -/
structure EditSession where
  edit_event_id : String
  edit_data_df : List TableRow
deriving DecidableEq, Repr

/-- The Edit Event tab's session logic on each render (lines 124-129):
if no session table exists yet or the remembered selection differs from
the current one, reinitialize the table from the selected event's current
attributes; otherwise keep the operator's in-progress table. -/
def tab3Render (sess : Option EditSession) (edit_event_id : String)
    (data_dict : List (String × String)) : EditSession :=
  match sess with
  | none => ⟨edit_event_id, data_dict⟩
  | some s => if s.edit_event_id ≠ edit_event_id then ⟨edit_event_id, data_dict⟩ else s

/-- Outcome of the Edit Event tab's submit handler. -/
structure EditOutcome where
  db : DB
  updated : Bool
  errorShown : Bool
deriving DecidableEq, Repr

/-- The Edit Event submit handler (lines 131-140): build `updated_data`
from the table, and `if updated_data:` call `update_event`; otherwise
show the validation error and change nothing. -/
def tab3Submit (db : DB) (edit_event_id : String) (table : List TableRow) : EditOutcome :=
  let updated_data := buildDict table
  if updated_data ≠ [] then
    ⟨update_event db edit_event_id updated_data, true, false⟩
  else
    ⟨db, false, true⟩

/-! ## Properties of the dict model -/

theorem dictInsert_ne_nil (k v : String) (d : List (String × String)) :
    dictInsert k v d ≠ [] := by
  cases d with
  | nil => simp [dictInsert]
  | cons hd t =>
    obtain ⟨k0, v0⟩ := hd
    simp only [dictInsert]
    split <;> simp

theorem keys_dictInsert_subset (k v : String) (d : List (String × String)) (k0 : String)
    (h : k0 ∈ (dictInsert k v d).map Prod.fst) : k0 = k ∨ k0 ∈ d.map Prod.fst := by
  induction d with
  | nil => simpa [dictInsert] using h
  | cons hd t ih =>
    obtain ⟨k1, v1⟩ := hd
    simp only [dictInsert] at h
    split at h
    · rcases (by simpa using h) with h | h
      · exact Or.inl h
      · exact Or.inr (by simp [h])
    · rcases (by simpa using h) with h | h
      · exact Or.inr (by simp [h])
      · rcases ih (by simpa using h) with h | h
        · exact Or.inl h
        · exact Or.inr (by simp [h])

theorem nodup_keys_dictInsert (k v : String) (d : List (String × String))
    (h : (d.map Prod.fst).Nodup) : ((dictInsert k v d).map Prod.fst).Nodup := by
  induction d with
  | nil => simp [dictInsert]
  | cons hd t ih =>
    obtain ⟨k1, v1⟩ := hd
    simp only [List.map_cons, List.nodup_cons] at h
    simp only [dictInsert]
    split
    · next heq => simp only [List.map_cons, List.nodup_cons]; exact ⟨heq ▸ h.1, h.2⟩
    · next hne =>
      simp only [List.map_cons, List.nodup_cons]
      refine ⟨fun hmem => ?_, ih h.2⟩
      rcases keys_dictInsert_subset k v t k1 hmem with rfl | hmem
      · exact hne rfl
      · exact h.1 hmem

theorem dictGet_dictInsert_self (k v : String) (d : List (String × String)) :
    dictGet k (dictInsert k v d) = some v := by
  induction d with
  | nil => simp [dictInsert, dictGet, List.find?]
  | cons hd t ih =>
    obtain ⟨k1, v1⟩ := hd
    simp only [dictInsert]
    split
    · simp [dictGet, List.find?]
    · next hne =>
      simp only [dictGet, List.find?_cons] at ih ⊢
      have : (decide (k1 = k)) = false := by simpa using fun h => hne h
      simp only [this]
      exact ih

theorem dictGet_dictInsert_ne (k k0 v : String) (d : List (String × String))
    (hne : k0 ≠ k) : dictGet k0 (dictInsert k v d) = dictGet k0 d := by
  induction d with
  | nil =>
    have : (decide (k = k0)) = false := by simpa using fun h => hne h.symm
    simp [dictInsert, dictGet, List.find?, this]
  | cons hd t ih =>
    obtain ⟨k1, v1⟩ := hd
    simp only [dictInsert]
    split
    · next heq =>
      subst heq
      simp only [dictGet, List.find?_cons]
      have : (decide (k1 = k0)) = false := by simpa using fun h => hne h.symm
      simp [this]
    · simp only [dictGet, List.find?_cons] at ih ⊢
      cases hdec : (decide (k1 = k0)) <;> simp [hdec, ih]

theorem mem_dictInsert (k v : String) (d : List (String × String)) (kv : String × String)
    (h : kv ∈ dictInsert k v d) : kv = (k, v) ∨ kv ∈ d := by
  induction d with
  | nil => simpa [dictInsert] using h
  | cons hd t ih =>
    obtain ⟨k1, v1⟩ := hd
    simp only [dictInsert] at h
    split at h
    · rcases (by simpa using h) with h | h
      · exact Or.inl (by simp [h])
      · exact Or.inr (by simp [h])
    · rcases (by simpa using h) with h | h
      · exact Or.inr (by simp [h])
      · rcases ih h with h | h
        · exact Or.inl h
        · exact Or.inr (by simp [h])

theorem dictInsert_of_not_mem (k v : String) (d : List (String × String))
    (h : k ∉ d.map Prod.fst) : dictInsert k v d = d ++ [(k, v)] := by
  induction d with
  | nil => simp [dictInsert]
  | cons hd t ih =>
    obtain ⟨k1, v1⟩ := hd
    simp only [List.map_cons, List.mem_cons, not_or] at h
    simp only [dictInsert]
    rw [if_neg (fun heq => h.1 heq.symm), ih h.2]
    simp

/-- Folding dict assignments whose keys are fresh and mutually distinct
just appends the pairs in order. -/
theorem foldl_dictInsert_of_nodup (pairs init : List (String × String))
    (h : ((init ++ pairs).map Prod.fst).Nodup) :
    pairs.foldl (fun d kv => dictInsert kv.1 kv.2 d) init = init ++ pairs := by
  induction pairs generalizing init with
  | nil => simp
  | cons kv t ih =>
    obtain ⟨k, v⟩ := kv
    have hmaps : ((init ++ (k, v) :: t).map Prod.fst) =
        init.map Prod.fst ++ k :: t.map Prod.fst := by simp
    rw [hmaps] at h
    have hk : k ∉ init.map Prod.fst := by
      intro hmem
      have := (List.nodup_append.mp h).2.2
      exact this hmem (by simp)
    simp only [List.foldl_cons]
    rw [dictInsert_of_not_mem k v init hk]
    rw [ih (init ++ [(k, v)]) (by simpa using h)]
    simp

/-! ## Properties of dict comprehensions over pair sequences -/

/-- On input with pairwise distinct keys, a dict comprehension over pairs
is a plain filter. -/
theorem dictComp_eq_filter_aux (p : String × String → Bool)
    (xs init : List (String × String))
    (h : ((init ++ xs.filter p).map Prod.fst).Nodup) :
    xs.foldl (fun d x => if p x then dictInsert x.1 x.2 d else d) init =
      init ++ xs.filter p := by
  induction xs generalizing init with
  | nil => simp
  | cons x t ih =>
    simp only [List.foldl_cons]
    cases hp : p x with
    | false =>
      rw [if_neg (by simp [hp])]
      have hfilter : (x :: t).filter p = t.filter p := by simp [List.filter_cons, hp]
      rw [hfilter] at h ⊢
      exact ih init h
    | true =>
      rw [if_pos (by simp [hp])]
      have hfilter : (x :: t).filter p = x :: t.filter p := by simp [List.filter_cons, hp]
      rw [hfilter] at h ⊢
      have hmaps : ((init ++ x :: t.filter p).map Prod.fst) =
          init.map Prod.fst ++ x.1 :: (t.filter p).map Prod.fst := by simp
      rw [hmaps] at h
      have hk : x.1 ∉ init.map Prod.fst := by
        intro hmem
        exact (List.nodup_append.mp h).2.2 hmem (by simp)
      obtain ⟨k, v⟩ := x
      rw [dictInsert_of_not_mem k v init hk]
      rw [ih (init ++ [(k, v)]) (by simpa using h)]
      simp

theorem dictComp_pairs_eq_filter (p : String × String → Bool)
    (xs : List (String × String)) (h : ((xs.filter p).map Prod.fst).Nodup) :
    dictComp Prod.fst Prod.snd p xs = xs.filter p := by
  simpa using dictComp_eq_filter_aux p xs [] (by simpa using h)

theorem nodup_keys_foldl_dictComp (f g : α → String) (p : α → Bool) :
    ∀ (xs : List α) (init : List (String × String)), (init.map Prod.fst).Nodup →
      ((xs.foldl (fun d x => if p x then dictInsert (f x) (g x) d else d) init).map
        Prod.fst).Nodup := by
  intro xs
  induction xs with
  | nil => intro init h; simpa using h
  | cons x t ih =>
    intro init h
    simp only [List.foldl_cons]
    split
    · exact ih _ (nodup_keys_dictInsert _ _ _ h)
    · exact ih _ h

/-- The keys of any dict comprehension are pairwise distinct. -/
theorem nodup_keys_dictComp (f g : α → String) (p : α → Bool) (xs : List α) :
    ((dictComp f g p xs).map Prod.fst).Nodup :=
  nodup_keys_foldl_dictComp f g p xs [] (by simp)

theorem foldl_dictComp_ne_nil (f g : α → String) (p : α → Bool) :
    ∀ (xs : List α) (init : List (String × String)), (init ≠ [] ∨ ∃ x ∈ xs, p x) →
      xs.foldl (fun d x => if p x then dictInsert (f x) (g x) d else d) init ≠ [] := by
  intro xs
  induction xs with
  | nil =>
    intro init h
    rcases h with h | ⟨x, hx, _⟩
    · simpa using h
    · simp at hx
  | cons x t ih =>
    intro init h
    simp only [List.foldl_cons]
    cases hp : p x with
    | true =>
      rw [if_pos (by simp [hp])]
      exact ih _ (Or.inl (dictInsert_ne_nil _ _ _))
    | false =>
      rw [if_neg (by simp [hp])]
      refine ih _ ?_
      rcases h with h | ⟨y, hy, hpy⟩
      · exact Or.inl h
      · rcases List.mem_cons.mp hy with rfl | hy
        · rw [hp] at hpy; cases hpy
        · exact Or.inr ⟨y, hy, hpy⟩

/-- A dict comprehension kept at least one element, so it is nonempty. -/
theorem dictComp_ne_nil (f g : α → String) (p : α → Bool) (xs : List α)
    (h : ∃ x ∈ xs, p x) : dictComp f g p xs ≠ [] :=
  foldl_dictComp_ne_nil f g p xs [] (Or.inr h)

theorem mem_foldl_dictComp (p : String × String → Bool) (kv : String × String) :
    ∀ (xs : List (String × String)) (init : List (String × String)),
      kv ∈ xs.foldl (fun d x => if p x then dictInsert x.1 x.2 d else d) init →
      kv ∈ init ∨ ∃ x ∈ xs, p x ∧ kv = x := by
  intro xs
  induction xs with
  | nil => intro init h; exact Or.inl (by simpa using h)
  | cons x t ih =>
    intro init h
    simp only [List.foldl_cons] at h
    by_cases hp : p x
    · rw [if_pos hp] at h
      rcases ih _ h with h | ⟨y, hy, hpy, hkv⟩
      · rcases mem_dictInsert _ _ _ _ h with h | h
        · exact Or.inr ⟨x, by simp, hp, by simpa using h⟩
        · exact Or.inl h
      · exact Or.inr ⟨y, by simp [hy], hpy, hkv⟩
    · rw [if_neg hp] at h
      rcases ih _ h with h | ⟨y, hy, hpy, hkv⟩
      · exact Or.inl h
      · exact Or.inr ⟨y, by simp [hy], hpy, hkv⟩

/-- Every entry of a dict comprehension over pairs is one of the kept
input pairs. -/
theorem mem_dictComp_pairs (p : String × String → Bool)
    (xs : List (String × String)) (kv : String × String)
    (h : kv ∈ dictComp Prod.fst Prod.snd p xs) : ∃ x ∈ xs, p x ∧ kv = x := by
  rcases mem_foldl_dictComp p kv xs [] h with h | h
  · simp at h
  · exact h

/-- A dict comprehension that keeps nothing is empty. -/
theorem dictComp_eq_nil (f g : α → String) (p : α → Bool) (xs : List α)
    (h : ∀ x ∈ xs, p x = false) : dictComp f g p xs = [] := by
  induction xs with
  | nil => rfl
  | cons x t ih =>
    have hx : p x = false := h x (by simp)
    have : dictComp f g p (x :: t) =
        t.foldl (fun d x => if p x then dictInsert (f x) (g x) d else d) [] := by
      simp [dictComp, List.foldl_cons, hx]
    rw [this]
    exact ih (fun y hy => h y (by simp [hy]))

/-- Looking up a key in a dict comprehension over pairs returns the value
of the last kept pair with that key. -/
theorem dictGet_dictComp_pairs (p : String × String → Bool)
    (xs : List (String × String)) (k : String) :
    dictGet k (dictComp Prod.fst Prod.snd p xs) =
      ((xs.filter (fun x => p x && x.1 = k)).getLast?).map Prod.snd := by
  induction xs using List.reverseRecOn with
  | nil => simp [dictComp, dictGet, List.find?]
  | append_singleton t x ih =>
    have hstep : dictComp Prod.fst Prod.snd p (t ++ [x]) =
        if p x then dictInsert x.1 x.2 (dictComp Prod.fst Prod.snd p t)
        else dictComp Prod.fst Prod.snd p t := by
      simp [dictComp, List.foldl_append]
    rw [hstep, List.filter_append]
    by_cases hp : p x
    · by_cases hk : x.1 = k
      · rw [if_pos hp]
        have hfx : [x].filter (fun x => p x && x.1 = k) = [x] := by simp [hp, hk]
        rw [hfx, List.getLast?_append_cons]
        simp only [List.getLast?_singleton, Option.map_some]
        rw [← hk, dictGet_dictInsert_self]
        exact (congrArg (Option.map Prod.snd) rfl) ▸ rfl
      · rw [if_pos hp]
        have hfx : [x].filter (fun x => p x && x.1 = k) = [] := by simp [hp, hk]
        rw [hfx, List.append_nil]
        rw [dictGet_dictInsert_ne x.1 k x.2 _ (fun h => hk h.symm)]
        exact ih
    · rw [if_neg hp]
      have hfx : [x].filter (fun x => p x && x.1 = k) = [] := by simp [hp]
      rw [hfx, List.append_nil]
      exact ih

/-! ## Round trip of the JSON string escaping -/

theorem hexVal_hexDigit : ∀ n, n < 16 → hexVal (hexDigit n) = some n := by decide

theorem char_scalar (c : Char) : c.toNat < 55296 ∨ (57343 < c.toNat ∧ c.toNat < 1114112) := by
  rcases c.valid with h | h
  · exact Or.inl h
  · exact Or.inr h

/-- Decoding a `\\uXXXX` escape outside the high-surrogate range. -/
theorem parseStrBody_u_plain (fuel n : Nat) (t : List Char) (hn : n < 65536)
    (hs : ¬(55296 ≤ n ∧ n < 56320)) :
    parseStrBody (fuel + 1) ('\\' :: 'u' :: encodeHex4 n ++ t) =
      consParsed (Char.ofNat n) (parseStrBody fuel t) := by
  have e1 := hexVal_hexDigit (n / 4096 % 16) (Nat.mod_lt _ (by norm_num))
  have e2 := hexVal_hexDigit (n / 256 % 16) (Nat.mod_lt _ (by norm_num))
  have e3 := hexVal_hexDigit (n / 16 % 16) (Nat.mod_lt _ (by norm_num))
  have e4 := hexVal_hexDigit (n % 16) (Nat.mod_lt _ (by norm_num))
  have hrec : n / 4096 % 16 * 4096 + n / 256 % 16 * 256 + n / 16 % 16 * 16 + n % 16 = n := by
    omega
  simp only [encodeHex4, List.cons_append, List.nil_append]
  simp only [parseStrBody, e1, e2, e3, e4]
  simp only [hrec]
  rw [if_neg hs]
  simp

/-- Decoding a surrogate-pair escape `\\uHHHH\\uLLLL`. -/
theorem parseStrBody_u_pair (fuel hi lo : Nat) (t : List Char)
    (h1 : 55296 ≤ hi) (h2 : hi < 56320) (h3 : 56320 ≤ lo) (h4 : lo < 57344) :
    parseStrBody (fuel + 1)
        ('\\' :: 'u' :: encodeHex4 hi ++ '\\' :: 'u' :: encodeHex4 lo ++ t) =
      consParsed (Char.ofNat (65536 + (hi - 55296) * 1024 + (lo - 56320)))
        (parseStrBody fuel t) := by
  have e1 := hexVal_hexDigit (hi / 4096 % 16) (Nat.mod_lt _ (by norm_num))
  have e2 := hexVal_hexDigit (hi / 256 % 16) (Nat.mod_lt _ (by norm_num))
  have e3 := hexVal_hexDigit (hi / 16 % 16) (Nat.mod_lt _ (by norm_num))
  have e4 := hexVal_hexDigit (hi % 16) (Nat.mod_lt _ (by norm_num))
  have hrec : hi / 4096 % 16 * 4096 + hi / 256 % 16 * 256 + hi / 16 % 16 * 16 + hi % 16 = hi := by
    omega
  simp only [encodeHex4, List.cons_append, List.nil_append]
  simp only [parseStrBody, e1, e2, e3, e4]
  simp only [hrec]
  rw [if_pos (⟨h1, h2⟩ : 55296 ≤ hi ∧ hi < 56320)]
  have f1 := hexVal_hexDigit (lo / 4096 % 16) (Nat.mod_lt _ (by norm_num))
  have f2 := hexVal_hexDigit (lo / 256 % 16) (Nat.mod_lt _ (by norm_num))
  have f3 := hexVal_hexDigit (lo / 16 % 16) (Nat.mod_lt _ (by norm_num))
  have f4 := hexVal_hexDigit (lo % 16) (Nat.mod_lt _ (by norm_num))
  have lrec : lo / 4096 % 16 * 4096 + lo / 256 % 16 * 256 + lo / 16 % 16 * 16 + lo % 16 = lo := by
    omega
  simp only [f1, f2, f3, f4]
  simp only [lrec]
  rw [if_pos (⟨h3, h4⟩ : 56320 ≤ lo ∧ lo < 57344)]
  simp

/-- Decoding the escape of any character consumes exactly that escape and
restores the character. -/
theorem parseStrBody_escapeChar (fuel : Nat) (c : Char) (t : List Char) :
    parseStrBody (fuel + 1) (escapeChar c ++ t) = consParsed c (parseStrBody fuel t) := by
  by_cases hq : c = '"'
  · subst hq; simp [escapeChar, parseStrBody]
  by_cases hb : c = '\\'
  · subst hb; simp [escapeChar, parseStrBody]
  by_cases h8 : c.toNat = 8
  · have hc : Char.ofNat 8 = c := by rw [← h8, Char.ofNat_toNat]
    rw [escapeChar, if_neg hq, if_neg hb, if_pos h8]
    simp only [List.cons_append, List.nil_append, parseStrBody]
    simp
    rw [hc]
  by_cases h9 : c.toNat = 9
  · have hc : Char.ofNat 9 = c := by rw [← h9, Char.ofNat_toNat]
    rw [escapeChar, if_neg hq, if_neg hb, if_neg h8, if_pos h9]
    simp only [List.cons_append, List.nil_append, parseStrBody]
    simp
    rw [hc]
  by_cases h10 : c.toNat = 10
  · have hc : Char.ofNat 10 = c := by rw [← h10, Char.ofNat_toNat]
    rw [escapeChar, if_neg hq, if_neg hb, if_neg h8, if_neg h9, if_pos h10]
    simp only [List.cons_append, List.nil_append, parseStrBody]
    simp
    rw [hc]
  by_cases h12 : c.toNat = 12
  · have hc : Char.ofNat 12 = c := by rw [← h12, Char.ofNat_toNat]
    rw [escapeChar, if_neg hq, if_neg hb, if_neg h8, if_neg h9, if_neg h10, if_pos h12]
    simp only [List.cons_append, List.nil_append, parseStrBody]
    simp
    rw [hc]
  by_cases h13 : c.toNat = 13
  · have hc : Char.ofNat 13 = c := by rw [← h13, Char.ofNat_toNat]
    rw [escapeChar, if_neg hq, if_neg hb, if_neg h8, if_neg h9, if_neg h10, if_neg h12,
      if_pos h13]
    simp only [List.cons_append, List.nil_append, parseStrBody]
    simp
    rw [hc]
  rw [escapeChar, if_neg hq, if_neg hb, if_neg h8, if_neg h9, if_neg h10, if_neg h12,
    if_neg h13]
  by_cases hrange : c.toNat < 32 ∨ 127 ≤ c.toNat
  · rw [if_pos hrange]
    by_cases hbmp : c.toNat < 65536
    · rw [if_pos hbmp]
      have hs : ¬(55296 ≤ c.toNat ∧ c.toNat < 56320) := by
        rcases char_scalar c with h | h
        · omega
        · omega
      have hplain := parseStrBody_u_plain fuel c.toNat t hbmp hs
      rw [List.cons_append, List.cons_append] at hplain ⊢
      rw [hplain, Char.ofNat_toNat]
    · rw [if_neg hbmp]
      have hv : c.toNat < 1114112 := by
        rcases char_scalar c with h | h
        · omega
        · omega
      have hpair := parseStrBody_u_pair fuel (55296 + (c.toNat - 65536) / 1024)
        (56320 + (c.toNat - 65536) % 1024) t
        (by omega) (by omega) (by omega) (by omega)
      have hcomb : 65536 + (55296 + (c.toNat - 65536) / 1024 - 55296) * 1024 +
          (56320 + (c.toNat - 65536) % 1024 - 56320) = c.toNat := by
        omega
      rw [hcomb, Char.ofNat_toNat] at hpair
      rw [← hpair]
  · rw [if_neg hrange]
    have hne32 : ¬ c.toNat < 32 := by omega
    rw [List.singleton_append]
    simp [parseStrBody, hq, hb, hne32]

/-- Round trip of a whole escaped string body: decoding stops at the
closing quote and restores the original characters. -/
theorem parseStrBody_encoded : ∀ (l t : List Char) (fuel : Nat),
    parseStrBody (l.length + fuel + 1) (l.flatMap escapeChar ++ '"' :: t) = some (l, t) := by
  intro l
  induction l with
  | nil =>
    intro t fuel
    simp [parseStrBody]
  | cons c l ih =>
    intro t fuel
    have harr : (c :: l).length + fuel + 1 = (l.length + fuel + 1) + 1 := by
      simp only [List.length_cons]; omega
    have hl : (c :: l).flatMap escapeChar ++ '"' :: t =
        escapeChar c ++ (l.flatMap escapeChar ++ '"' :: t) := by
      simp [List.flatMap_cons, List.append_assoc]
    rw [harr, hl, parseStrBody_escapeChar, ih t fuel]
    rfl

theorem one_le_length_escapeChar (c : Char) : 1 ≤ (escapeChar c).length := by
  rw [escapeChar]
  split
  · simp
  · split
    · simp
    · split
      · simp
      · split
        · simp
        · split
          · simp
          · split
            · simp
            · split
              · simp
              · split
                · split <;> simp
                · simp

theorem length_le_flatMap_escape (l : List Char) :
    l.length ≤ (l.flatMap escapeChar).length := by
  induction l with
  | nil => simp
  | cons c l ih =>
    have := one_le_length_escapeChar c
    simp only [List.flatMap_cons, List.length_append, List.length_cons]
    omega

/-- Round trip of a JSON string literal with any fuel at least the input
length plus one. -/
theorem parseStrBody_encoded_fuel (l t : List Char) (fuel : Nat)
    (h : l.length + 1 ≤ fuel) :
    parseStrBody fuel (l.flatMap escapeChar ++ '"' :: t) = some (l, t) := by
  have : fuel = l.length + (fuel - l.length - 1) + 1 := by omega
  rw [this, parseStrBody_encoded]

/-- A serialized string literal followed by anything parses back to the
original string, consuming exactly the literal. -/
theorem parseJString_encodeString (s : String) (rest : List Char) :
    parseJString (encodeString s ++ rest) = some (s, rest) := by
  have hshape : encodeString s ++ rest = '"' :: (s.data.flatMap escapeChar ++ '"' :: rest) := by
    simp [encodeString, List.append_assoc]
  rw [hshape]
  simp only [parseJString]
  rw [parseStrBody_encoded_fuel s.data rest _ (by
    have h1 := length_le_flatMap_escape s.data
    simp only [List.length_append, List.length_cons]
    omega)]
  rfl

/-! ## Round trip of the object layer -/

theorem skipWs_cons_not_ws (c : Char) (l : List Char) (h : isJsonWs c = false) :
    skipWs (c :: l) = c :: l := by
  simp [skipWs, List.dropWhile_cons, h]

theorem skipWs_cons_ws (c : Char) (l : List Char) (h : isJsonWs c = true) :
    skipWs (c :: l) = skipWs l := by
  simp [skipWs, List.dropWhile_cons, h]

theorem skipWs_encodeString (s : String) (rest : List Char) :
    skipWs (encodeString s ++ rest) = encodeString s ++ rest := by
  rw [encodeString, List.cons_append]
  exact skipWs_cons_not_ws _ _ (by rfl)

theorem parsePairs_ws (fuel : Nat) (c : Char) (l : List Char) (h : isJsonWs c = true) :
    parsePairs fuel (c :: l) = parsePairs fuel l := by
  cases fuel with
  | zero => rfl
  | succ fuel =>
    simp only [parsePairs]
    rw [skipWs_cons_ws c l h]

theorem intercalate_cons₂ (sep a b : List Char) (l : List (List Char)) :
    List.intercalate sep (a :: b :: l) = a ++ sep ++ List.intercalate sep (b :: l) := by
  simp [List.intercalate, List.intersperse_cons_cons, List.append_assoc]

/-- The serialized member list followed by the closing brace parses back
to the original pairs, with any sufficient fuel surplus. -/
theorem parsePairs_encoded : ∀ (m : List (String × String)) (t : List Char) (fuel : Nat),
    m ≠ [] →
    parsePairs (m.length + fuel)
      (List.intercalate [',', ' '] (m.map encodeMember) ++ '\x7d' :: t) = some (m, t) := by
  intro m
  induction m with
  | nil => intro t fuel h; cases h rfl
  | cons kv m ih =>
    intro t fuel hne
    cases m with
    | nil =>
      have hshape : List.intercalate [',', ' '] ([kv].map encodeMember) ++ '\x7d' :: t =
          encodeString kv.1 ++ (':' :: ' ' :: (encodeString kv.2 ++ '\x7d' :: t)) := by
        simp [List.intercalate, encodeMember, List.append_assoc]
      have hlen : [kv].length + fuel = fuel + 1 := by simp; omega
      rw [hshape, hlen]
      simp only [parsePairs]
      have w2 : skipWs (':' :: ' ' :: (encodeString kv.2 ++ '\x7d' :: t)) =
          ':' :: ' ' :: (encodeString kv.2 ++ '\x7d' :: t) :=
        skipWs_cons_not_ws ':' _ (by rfl)
      have w3 : skipWs (' ' :: (encodeString kv.2 ++ '\x7d' :: t)) =
          encodeString kv.2 ++ '\x7d' :: t := by
        rw [skipWs_cons_ws _ _ (by rfl), skipWs_encodeString]
      have w4 : skipWs ('\x7d' :: t) = '\x7d' :: t := skipWs_cons_not_ws _ _ (by rfl)
      simp only [skipWs_encodeString, parseJString_encodeString, w2, w3, w4]
    | cons kv2 m2 =>
      have hshape : List.intercalate [',', ' '] ((kv :: kv2 :: m2).map encodeMember) ++
            '\x7d' :: t =
          encodeString kv.1 ++ (':' :: ' ' :: (encodeString kv.2 ++ ',' :: ' ' ::
            (List.intercalate [',', ' '] ((kv2 :: m2).map encodeMember) ++ '\x7d' :: t))) := by
        rw [List.map_cons, List.map_cons, intercalate_cons₂, ← List.map_cons]
        simp [encodeMember, List.append_assoc]
      have hlen : (kv :: kv2 :: m2).length + fuel = ((kv2 :: m2).length + fuel) + 1 := by
        simp only [List.length_cons]; omega
      rw [hshape, hlen]
      simp only [parsePairs]
      have w2 : skipWs (':' :: ' ' :: (encodeString kv.2 ++ ',' :: ' ' ::
            (List.intercalate [',', ' '] ((kv2 :: m2).map encodeMember) ++ '\x7d' :: t))) =
          ':' :: ' ' :: (encodeString kv.2 ++ ',' :: ' ' ::
            (List.intercalate [',', ' '] ((kv2 :: m2).map encodeMember) ++ '\x7d' :: t)) :=
        skipWs_cons_not_ws ':' _ (by rfl)
      have w3 : skipWs (' ' :: (encodeString kv.2 ++ ',' :: ' ' ::
            (List.intercalate [',', ' '] ((kv2 :: m2).map encodeMember) ++ '\x7d' :: t))) =
          encodeString kv.2 ++ ',' :: ' ' ::
            (List.intercalate [',', ' '] ((kv2 :: m2).map encodeMember) ++ '\x7d' :: t) := by
        rw [skipWs_cons_ws _ _ (by rfl), skipWs_encodeString]
      have w4 : skipWs (',' :: ' ' ::
            (List.intercalate [',', ' '] ((kv2 :: m2).map encodeMember) ++ '\x7d' :: t)) =
          ',' :: ' ' ::
            (List.intercalate [',', ' '] ((kv2 :: m2).map encodeMember) ++ '\x7d' :: t) :=
        skipWs_cons_not_ws ',' _ (by rfl)
      have w5 : parsePairs ((kv2 :: m2).length + fuel) (' ' ::
            (List.intercalate [',', ' '] ((kv2 :: m2).map encodeMember) ++ '\x7d' :: t)) =
          some (kv2 :: m2, t) := by
        rw [parsePairs_ws _ ' ' _ (by rfl)]
        exact ih t fuel (by simp)
      simp only [skipWs_encodeString, parseJString_encodeString, w2, w3, w4, w5]
      rfl

theorem length_le_intercalate_members : ∀ (m : List (String × String)),
    m.length ≤ (List.intercalate [',', ' '] (m.map encodeMember)).length + 1 := by
  intro m
  induction m with
  | nil => simp
  | cons kv m ih =>
    cases m with
    | nil => simp [List.intercalate]
    | cons kv2 m2 =>
      rw [List.map_cons, List.map_cons, intercalate_cons₂, ← List.map_cons]
      simp only [List.length_cons, List.length_append] at ih ⊢
      omega

theorem intercalate_members_head (kv : String × String) (m : List (String × String)) :
    ∃ Y, List.intercalate [',', ' '] ((kv :: m).map encodeMember) = encodeString kv.1 ++ Y := by
  cases m with
  | nil =>
    refine ⟨':' :: ' ' :: encodeString kv.2, ?_⟩
    simp [List.intercalate, encodeMember]
  | cons kv2 m2 =>
    refine ⟨':' :: ' ' :: (encodeString kv.2 ++ ',' :: ' ' ::
      List.intercalate [',', ' '] ((kv2 :: m2).map encodeMember)), ?_⟩
    rw [List.map_cons, List.map_cons, intercalate_cons₂, ← List.map_cons]
    simp [encodeMember, List.append_assoc]

/-- The full serialized object parses back to the original pairs with
nothing left over. -/
theorem parseFlatObj_dumps (m : List (String × String)) :
    parseFlatObj (json_dumps m).data = some (m, []) := by
  cases m with
  | nil => rfl
  | cons kv m =>
    obtain ⟨Y, hY⟩ := intercalate_members_head kv m
    have hXcons : List.intercalate [',', ' '] ((kv :: m).map encodeMember) ++ ['\x7d'] =
        '"' :: (kv.1.data.flatMap escapeChar ++ '"' :: (Y ++ ['\x7d'])) := by
      rw [hY, encodeString]
      simp [List.append_assoc]
    have hdata : (json_dumps (kv :: m)).data =
        '\x7b' :: (List.intercalate [',', ' '] ((kv :: m).map encodeMember) ++ ['\x7d']) := rfl
    rw [hdata, hXcons]
    have v1 : skipWs ('\x7b' :: '"' :: (kv.1.data.flatMap escapeChar ++ '"' :: (Y ++ ['\x7d']))) =
        '\x7b' :: '"' :: (kv.1.data.flatMap escapeChar ++ '"' :: (Y ++ ['\x7d'])) :=
      skipWs_cons_not_ws _ _ (by rfl)
    have v2 : skipWs ('"' :: (kv.1.data.flatMap escapeChar ++ '"' :: (Y ++ ['\x7d']))) =
        '"' :: (kv.1.data.flatMap escapeChar ++ '"' :: (Y ++ ['\x7d'])) :=
      skipWs_cons_not_ws _ _ (by rfl)
    simp only [parseFlatObj, v1, v2]
    show parsePairs
        (('"' :: (kv.1.data.flatMap escapeChar ++ '"' :: (Y ++ ['\x7d']))).length + 1)
        ('"' :: (kv.1.data.flatMap escapeChar ++ '"' :: (Y ++ ['\x7d']))) = some (kv :: m, [])
    rw [← hXcons]
    have hfuel : (List.intercalate [',', ' '] ((kv :: m).map encodeMember) ++ ['\x7d']).length + 1 =
        (kv :: m).length +
          ((List.intercalate [',', ' '] ((kv :: m).map encodeMember) ++ ['\x7d']).length + 1 -
            (kv :: m).length) := by
      have hlen := length_le_intercalate_members (kv :: m)
      simp only [List.length_append, List.length_cons, List.length_nil] at hlen ⊢
      omega
    rw [hfuel]
    exact parsePairs_encoded (kv :: m) [] _ (by simp)

/-- The serialize-then-deserialize round trip on any dict (a pair list
with pairwise distinct keys). -/
theorem json_loads_dumps (m : List (String × String)) (h : (m.map Prod.fst).Nodup) :
    json_loads (json_dumps m) = some m := by
  rw [json_loads, parseFlatObj_dumps]
  have hfold : m.foldl (fun d kv => dictInsert kv.1 kv.2 d) [] = m := by
    simpa using foldl_dictInsert_of_nodup m [] (by simpa using h)
  simp [skipWs, hfold]

/-! ## Properties of the repository operations -/

theorem nodup_keys_formatData (m : List (String × String)) :
    ((formatData m).map Prod.fst).Nodup :=
  nodup_keys_dictComp _ _ _ m

theorem nodup_keys_buildDict (rows : List TableRow) :
    ((buildDict rows).map Prod.fst).Nodup :=
  nodup_keys_dictComp _ _ _ rows

/-- On a mapping (distinct keys), the write-time sanitization is exactly
the filter keeping entries with non-empty key and non-empty value. -/
theorem formatData_eq_filter (m : List (String × String)) (h : (m.map Prod.fst).Nodup) :
    formatData m = m.filter (fun kv => kv.1 ≠ "" && kv.2 ≠ "") := by
  apply dictComp_pairs_eq_filter
  exact ((List.filter_sublist m).map Prod.fst).nodup h

/-- Inversion of `fetch_events` on a cons cell. -/
theorem fetch_events_cons_inv (row : BRow) (rest : DB) (evs : List Event)
    (h : fetch_events (row :: rest) = some evs) :
    ∃ m0 evs2, evs = (row.id, m0) :: evs2 ∧ fetch_events rest = some evs2 ∧
      (match row.data with
       | Cell.str s => json_loads s = some m0
       | Cell.obj mo => m0 = mo) := by
  cases hdata : row.data with
  | str s =>
    simp only [fetch_events, hdata] at h
    cases hls : json_loads s with
    | none => simp [hls] at h
    | some m0 =>
      simp only [hls] at h
      cases hrest : fetch_events rest with
      | none => simp [hrest] at h
      | some evs2 =>
        simp only [hrest] at h
        exact ⟨m0, evs2, by simpa using h.symm, rfl, by simp [hls]⟩
  | obj mo =>
    simp only [fetch_events, hdata] at h
    cases hrest : fetch_events rest with
    | none => simp [hrest] at h
    | some evs2 =>
      simp only [hrest, Option.map_some] at h
      exact ⟨mo, evs2, by simpa using h.symm, rfl, by simp⟩

/-- After an update, the whole table still fetches, and every event
reported under the updated id carries exactly the sanitized new mapping. -/
theorem fetch_events_update (db : DB) (eid : String) (m : List (String × String)) :
    ∀ (evs0 : List Event), fetch_events db = some evs0 →
    ∃ evs, fetch_events (update_event db eid m) = some evs ∧
      evs.length = db.length ∧
      (∀ e ∈ evs, e.1 = eid → e.2 = formatData m) ∧
      (eid ∈ db.map BRow.id → ∃ e ∈ evs, e.1 = eid ∧ e.2 = formatData m) := by
  induction db with
  | nil =>
    intro evs0 h
    refine ⟨[], rfl, rfl, by simp, by simp⟩
  | cons row rest ih =>
    intro evs0 h
    obtain ⟨m0, evs2, rfl, hrest, hrow⟩ := fetch_events_cons_inv row rest evs0 h
    obtain ⟨evs', hfetch', hlen', hall', hex'⟩ := ih evs2 hrest
    by_cases hid : row.id = eid
    · refine ⟨(row.id, formatData m) :: evs', ?_, by simp [hlen'], ?_, ?_⟩
      · have hupd : update_event (row :: rest) eid m =
            ⟨row.id, Cell.str (json_dumps (formatData m))⟩ :: update_event rest eid m := by
          simp [update_event, hid]
        rw [hupd]
        simp only [fetch_events]
        rw [json_loads_dumps (formatData m) (nodup_keys_formatData m)]
        rw [hfetch']
      · intro e he heid
        rcases List.mem_cons.mp he with rfl | he
        · rfl
        · exact hall' e he heid
      · intro _
        exact ⟨(row.id, formatData m), by simp, hid, rfl⟩
    · have hupd : update_event (row :: rest) eid m = row :: update_event rest eid m := by
        simp [update_event, hid]
      have hfetchcons : fetch_events (row :: update_event rest eid m) =
          some ((row.id, m0) :: evs') := by
        cases hdata : row.data with
        | str s =>
          have hls : json_loads s = some m0 := by
            rw [hdata] at hrow; exact hrow
          simp only [fetch_events, hdata, hls, hfetch']
        | obj mo =>
          have hmo : m0 = mo := by rw [hdata] at hrow; exact hrow
          simp only [fetch_events, hdata, hfetch', Option.map_some]
          simp [hmo]
      refine ⟨(row.id, m0) :: evs', by rw [hupd]; exact hfetchcons, by simp [hlen'], ?_, ?_⟩
      · intro e he heid
        rcases List.mem_cons.mp he with rfl | he
        · exact absurd heid hid
        · exact hall' e he heid
      · intro hmem
        have hsplit : eid = row.id ∨ ∃ a ∈ rest, a.id = eid := by simpa using hmem
        rcases hsplit with heq | ⟨a, ha, haid⟩
        · exact absurd heq.symm hid
        · have hmem2 : eid ∈ rest.map BRow.id := by
            simp only [List.mem_map]
            exact ⟨a, ha, haid⟩
          obtain ⟨e, he, h1, h2⟩ := hex' hmem2
          exact ⟨e, by simp [he], h1, h2⟩

/-! ## The claims -/

/-- C1: For every attribute mapping given to add or to update, only the
entries whose key and value are both non-empty are persisted (the
write-time sanitization is exactly that filter), and in particular the
mapping with entries ("", "x"), ("a", ""), ("b", "ok") is persisted by
both add and update as exactly the one-entry mapping ("b", "ok"). -/
theorem C1_only_nonempty_entries_persisted (db : DB) (eid : String)
    (m : List (String × String)) (hnd : (m.map Prod.fst).Nodup) :
    formatData m = m.filter (fun kv => kv.1 ≠ "" && kv.2 ≠ "") ∧
    add_event db eid m = db ++ [⟨eid, Cell.str (json_dumps (formatData m))⟩] ∧
    update_event db eid m = db.map (fun row =>
      if row.id = eid then ⟨row.id, Cell.str (json_dumps (formatData m))⟩ else row) ∧
    add_event db eid [("", "x"), ("a", ""), ("b", "ok")] =
      db ++ [⟨eid, Cell.str (json_dumps [("b", "ok")])⟩] ∧
    update_event db eid [("", "x"), ("a", ""), ("b", "ok")] = db.map (fun row =>
      if row.id = eid then ⟨row.id, Cell.str (json_dumps [("b", "ok")])⟩ else row) := by
  have hconc : formatData [("", "x"), ("a", ""), ("b", "ok")] = [("b", "ok")] := by decide
  refine ⟨formatData_eq_filter m hnd, rfl, rfl, ?_, ?_⟩
  · rw [add_event, hconc]
  · rw [update_event, hconc]

theorem C1_only_nonempty_entries_persisted_witness :
    add_event [] "evt1" [("", "x"), ("a", ""), ("b", "ok")] =
      [⟨"evt1", Cell.str (json_dumps [("b", "ok")])⟩] := by
  simpa using
    (C1_only_nonempty_entries_persisted [] "evt1" [("", "x"), ("a", ""), ("b", "ok")]
      (by decide)).2.2.2.1

/-- C2: For every mapping from non-empty attribute names to non-empty
prompt texts, deserializing (the json.loads of fetch) the result of
serializing it (the json.dumps of add/update) yields the identical
mapping. -/
theorem C2_serialize_roundtrip (m : List (String × String))
    (hnd : (m.map Prod.fst).Nodup)
    (hne : ∀ kv ∈ m, kv.1 ≠ "" ∧ kv.2 ≠ "") :
    json_loads (json_dumps m) = some m :=
  json_loads_dumps m hnd

theorem C2_serialize_roundtrip_witness :
    json_loads (json_dumps [("a", "x"), ("b", "ok")]) = some [("a", "x"), ("b", "ok")] :=
  C2_serialize_roundtrip [("a", "x"), ("b", "ok")] (by decide) (by decide)

/-- C3: A Create submission with an empty id or an empty built mapping is
rejected with the validation message, does not touch the repository and
leaves the editable table unchanged; otherwise add runs with that id and
mapping, the success path resets the table. -/
theorem C3_create_validation (db : DB) (eid : String) (tbl : List TableRow) :
    ((eid = "" ∨ buildDict tbl = []) →
      tab2Submit db eid tbl = ⟨db, false, true, tbl⟩) ∧
    (eid ≠ "" → buildDict tbl ≠ [] →
      tab2Submit db eid tbl = ⟨add_event db eid (buildDict tbl), true, false, []⟩) := by
  constructor
  · intro h
    have hcond : ¬(eid ≠ "" ∧ buildDict tbl ≠ []) := by
      rcases h with h | h
      · exact fun hc => hc.1 h
      · exact fun hc => hc.2 h
    simp only [tab2Submit]
    rw [if_neg hcond]
  · intro h1 h2
    simp only [tab2Submit]
    rw [if_pos (⟨h1, h2⟩ : eid ≠ "" ∧ buildDict tbl ≠ [])]

theorem C3_create_validation_witness :
    tab2Submit [] "" [("a", "1")] =
      ⟨[], false, true, [("a", "1")]⟩ :=
  (C3_create_validation [] "" [("a", "1")]).1 (Or.inl rfl)

/-- C4: Updating an existing event and then fetching reports that event's
attributes as exactly the sanitized new mapping, fully replacing the
previous one (never merging). -/
theorem C4_update_replaces (db : DB) (eid : String) (m : List (String × String))
    (evs0 : List Event) (hdb : fetch_events db = some evs0)
    (hex : eid ∈ db.map BRow.id) :
    ∃ evs, fetch_events (update_event db eid m) = some evs ∧
      (∃ e ∈ evs, e.1 = eid ∧ e.2 = formatData m) ∧
      (∀ e ∈ evs, e.1 = eid → e.2 = formatData m) := by
  obtain ⟨evs, h1, _, h3, h4⟩ := fetch_events_update db eid m evs0 hdb
  exact ⟨evs, h1, h4 hex, h3⟩

theorem C4_update_replaces_witness :
    ∃ evs,
      fetch_events (update_event [⟨"evt1", Cell.str (json_dumps [("greeting", "hello")])⟩]
        "evt1" [("greeting", "hi"), ("mood", "cheerful")]) = some evs ∧
      (∃ e ∈ evs, e.1 = "evt1" ∧
        e.2 = formatData [("greeting", "hi"), ("mood", "cheerful")]) ∧
      (∀ e ∈ evs, e.1 = "evt1" →
        e.2 = formatData [("greeting", "hi"), ("mood", "cheerful")]) :=
  C4_update_replaces [⟨"evt1", Cell.str (json_dumps [("greeting", "hello")])⟩] "evt1"
    [("greeting", "hi"), ("mood", "cheerful")] [("evt1", [("greeting", "hello")])]
    (by rfl) (by decide)

/-- C5: In the Edit Controller, a render with a selected id different
from the remembered one reinitializes the editable table from the
selected event's current attributes, discarding in-progress edits, and a
render with the same selected id preserves the in-progress table. -/
theorem C5_selection_reload (sess : EditSession) (sel : String)
    (attrs : List (String × String)) :
    (sess.edit_event_id ≠ sel → tab3Render (some sess) sel attrs = ⟨sel, attrs⟩) ∧
    (sess.edit_event_id = sel → tab3Render (some sess) sel attrs = sess) := by
  constructor
  · intro h; simp [tab3Render, h]
  · intro h; simp [tab3Render, h]

theorem C5_selection_reload_witness :
    tab3Render (some ⟨"E1", [("a", "1"), ("draft", "unsaved")]⟩) "E2" [("b", "2")] =
      ⟨"E2", [("b", "2")]⟩ :=
  (C5_selection_reload ⟨"E1", [("a", "1"), ("draft", "unsaved")]⟩ "E2" [("b", "2")]).1
    (by decide)

/-- C6: A successful fetch returns one event per backend row, in order;
a row whose data column is text is deserialized with json.loads, and a
row whose data column is already structured is passed through unchanged. -/
theorem C6_fetch_shape (db : DB) (evs : List Event)
    (h : fetch_events db = some evs) :
    evs.length = db.length ∧
    List.Forall₂ (fun (row : BRow) (e : Event) =>
      e.1 = row.id ∧
      (match row.data with
       | Cell.str s => json_loads s = some e.2
       | Cell.obj m0 => e.2 = m0)) db evs := by
  induction db generalizing evs with
  | nil =>
    have hevs : evs = [] := by
      have h0 : (some [] : Option (List Event)) = some evs := h
      simpa using h0.symm
    subst hevs
    exact ⟨rfl, List.Forall₂.nil⟩
  | cons row rest ih =>
    obtain ⟨m0, evs2, rfl, hrest, hrow⟩ := fetch_events_cons_inv row rest evs h
    obtain ⟨hlen, hf⟩ := ih evs2 hrest
    refine ⟨by simp [hlen], List.Forall₂.cons ⟨rfl, ?_⟩ hf⟩
    exact hrow

theorem C6_fetch_shape_witness :
    fetch_events [⟨"e1", Cell.str "\x7b\"a\": \"1\"\x7d"⟩, ⟨"e2", Cell.obj [("b", "2")]⟩] =
      some [("e1", [("a", "1")]), ("e2", [("b", "2")])] ∧
    ([("e1", [("a", "1")]), ("e2", [("b", "2")])] : List Event).length = 2 := by
  refine ⟨by rfl, ?_⟩
  have hshape := C6_fetch_shape
    [⟨"e1", Cell.str "\x7b\"a\": \"1\"\x7d"⟩, ⟨"e2", Cell.obj [("b", "2")]⟩]
    [("e1", [("a", "1")]), ("e2", [("b", "2")])] (by rfl)
  simpa using hshape.1

/-- C7: The mapping built on submit from an editable table binds a
repeated non-empty attribute name exactly once, to the prompt of the last
row carrying it: the built dict has pairwise distinct keys and looking a
name up yields the last matching row's prompt. -/
theorem C7_last_writer_wins (rows : List TableRow) (k : String) (hk : k ≠ "") :
    ((buildDict rows).map Prod.fst).Nodup ∧
    dictGet k (buildDict rows) =
      ((rows.filter (fun r => r.1 = k)).getLast?).map Prod.snd := by
  refine ⟨nodup_keys_buildDict rows, ?_⟩
  have hbase := dictGet_dictComp_pairs (fun r => r.1 ≠ "") rows k
  have hfilter : rows.filter (fun x => (x.1 ≠ "" : Bool) && (x.1 = k : Bool)) =
      rows.filter (fun r => (r.1 = k : Bool)) := by
    apply List.filter_congr
    intro x _
    by_cases hx : x.1 = k
    · simp [hx, hk]
    · simp [hx]
  rw [buildDict, hbase, hfilter]

theorem C7_last_writer_wins_witness :
    ((buildDict [("a", "1"), ("a", "2"), ("b", "3")]).map Prod.fst).Nodup ∧
    dictGet "a" (buildDict [("a", "1"), ("a", "2"), ("b", "3")]) =
      (([("a", "1"), ("a", "2"), ("b", "3")].filter
        (fun r => r.1 = "a")).getLast?).map Prod.snd :=
  C7_last_writer_wins [("a", "1"), ("a", "2"), ("b", "3")] "a" (by decide)

/-- C8: An Edit submission whose built mapping is empty is rejected with
the validation message and does not touch the repository; otherwise
update runs with the selected id and that mapping. -/
theorem C8_edit_validation (db : DB) (eid : String) (tbl : List TableRow) :
    (buildDict tbl = [] → tab3Submit db eid tbl = ⟨db, false, true⟩) ∧
    (buildDict tbl ≠ [] →
      tab3Submit db eid tbl = ⟨update_event db eid (buildDict tbl), true, false⟩) := by
  constructor
  · intro h
    simp only [tab3Submit]
    rw [if_neg (by simp [h])]
  · intro h
    simp only [tab3Submit]
    rw [if_pos h]

theorem C8_edit_validation_witness :
    tab3Submit [⟨"e", Cell.obj [("a", "1")]⟩] "e" [("", "x")] =
      ⟨[⟨"e", Cell.obj [("a", "1")]⟩], false, true⟩ :=
  (C8_edit_validation [⟨"e", Cell.obj [("a", "1")]⟩] "e" [("", "x")]).1 (by decide)

/-- C9: A Create submission whose table has at least one row with a
non-empty attribute name, but only empty prompts on such rows, passes
validation when the id is non-empty — add is called — yet the persisted
attribute mapping is empty, because the repository-level filter drops
every entry the validation counted. -/
theorem C9_validated_but_persisted_empty (db : DB) (eid : String) (rows : List TableRow)
    (hid : eid ≠ "")
    (hsome : ∃ r ∈ rows, r.1 ≠ "")
    (hall : ∀ r ∈ rows, r.1 ≠ "" → r.2 = "") :
    tab2Submit db eid rows = ⟨add_event db eid (buildDict rows), true, false, []⟩ ∧
    add_event db eid (buildDict rows) = db ++ [⟨eid, Cell.str "\x7b\x7d"⟩] := by
  have hne : buildDict rows ≠ [] := by
    apply dictComp_ne_nil
    obtain ⟨r, hr, hr1⟩ := hsome
    exact ⟨r, hr, by simpa using hr1⟩
  constructor
  · simp only [tab2Submit]
    rw [if_pos (⟨hid, hne⟩ : eid ≠ "" ∧ buildDict rows ≠ [])]
  · have hformat : formatData (buildDict rows) = [] := by
      apply dictComp_eq_nil
      intro kv hkv
      obtain ⟨x, hx, hpx, hkvx⟩ := mem_dictComp_pairs _ rows kv hkv
      have h2 : x.2 = "" := hall x hx (by simpa using hpx)
      rw [hkvx]
      simp [h2]
    rw [add_event, hformat]
    rfl

theorem C9_validated_but_persisted_empty_witness :
    tab2Submit [] "e" [("a", "")] =
      ⟨add_event [] "e" (buildDict [("a", "")]), true, false, []⟩ ∧
    add_event [] "e" (buildDict [("a", "")]) = [⟨"e", Cell.str "\x7b\x7d"⟩] :=
  C9_validated_but_persisted_empty [] "e" [("a", "")] (by decide) (by decide) (by decide)

/-- C10: update writes only the data column of rows matching the id: the
table length is unchanged, every row's id is unchanged, and every row
whose id differs from the updated one is wholly unchanged. -/
theorem C10_update_frame (db : DB) (eid : String) (m : List (String × String)) :
    (update_event db eid m).length = db.length ∧
    (∀ i : Nat, ((update_event db eid m)[i]?).map BRow.id = (db[i]?).map BRow.id) ∧
    (∀ i : Nat, ∀ row : BRow, db[i]? = some row → row.id ≠ eid →
      (update_event db eid m)[i]? = some row) := by
  refine ⟨by simp [update_event], ?_, ?_⟩
  · intro i
    simp only [update_event, List.getElem?_map]
    cases db[i]? with
    | none => rfl
    | some row =>
      by_cases h : row.id = eid <;> simp [h]
  · intro i row hrow hne
    simp only [update_event, List.getElem?_map, hrow]
    simp [hne]

theorem C10_update_frame_witness :
    (update_event [⟨"a", Cell.obj []⟩, ⟨"b", Cell.obj []⟩] "a" [("k", "v")])[1]? =
      some ⟨"b", Cell.obj []⟩ :=
  (C10_update_frame [⟨"a", Cell.obj []⟩, ⟨"b", Cell.obj []⟩] "a" [("k", "v")]).2.2 1
    ⟨"b", Cell.obj []⟩ (by rfl) (by decide)

end EventManager
